import Mathlib

/-!
Verification development for the template-driven project generation engine
of the `cargo-jam` repository.  Strings are embedded as `List Char`; the
relevant Rust functions are translated into executable Lean definitions and
the specified properties are proved or refuted about them.

Sources embedded here:
* `src/template/config.rs` — `glob_match`, `TemplateConfig.should_process_file`,
  `TemplateConfig.should_ignore_file`;
* `src/cli/commands/new.rs` — `collect_predefined_variables`, the local
  `validate_project_name`, and the output-directory existence check of `execute`;
* `src/project/validation.rs` — the full `validate_project_name`;
* `src/project/generator.rs` — `ProjectGenerator::generate`, `process_filename`,
  `process_file`;
* the rendering engine (`src/template/engine.rs`) delegates interpolation to the
  external `liquid` crate and case conversion to the external `heck` crate;
  those two collaborators are modelled from the spec (see the doc comments of
  `renderText` and `splitWords`).
-/

/-! ## Rust string primitives on `List Char` -/

/-- Model of Rust `str::replace` (leftmost, non-overlapping) with explicit
fuel; one unit of fuel is spent per step and each step consumes at least one
character, so `length + 1` fuel always suffices.  An empty needle leaves the
string unchanged (the needles used below are `"**"` and `"*"`, never empty). -/
def replaceF (pat rep : List Char) : Nat → List Char → List Char
  | 0, s => s
  | _ + 1, [] => []
  | f + 1, c :: rest =>
    if pat ≠ [] ∧ pat.isPrefixOf (c :: rest) then
      rep ++ replaceF pat rep f ((c :: rest).drop pat.length)
    else
      c :: replaceF pat rep f rest

/-- Rust `s.replace(pat, rep)` on character lists. -/
def replaceL (s pat rep : List Char) : List Char :=
  replaceF pat rep (s.length + 1) s

/-- Rust `str::split_once(sep)`: split at the first occurrence of `sep`,
returning `none` when `sep` does not occur. -/
def splitOnce (sep : Char) : List Char → Option (List Char × List Char)
  | [] => none
  | c :: rest =>
    if c = sep then some ([], rest)
    else (splitOnce sep rest).map (fun p => (c :: p.1, p.2))

/-- Substring test (Rust `str::contains` for a string needle). -/
def containsSub (pat : List Char) : List Char → Bool
  | [] => pat.isPrefixOf []
  | c :: rest => pat.isPrefixOf (c :: rest) || containsSub pat rest

/-! ## The pattern matcher (`glob_match` in `src/template/config.rs`)

`glob_match` builds a regular expression from the pattern by
`pattern.replace("**", ".*").replace('*', "[^/]*")`, wraps it in `^…$` and
matches with the `regex` crate; when the regex fails to compile, or when the
pattern has no `*` at all, it falls back to an exact or directory-prefix
comparison.  The regexes produced this way from patterns over path characters
use only: literal characters, `.` (any character except newline), the class
`[^/]`, and postfix `*`.  `compileGlob` parses exactly this fragment and
rejects everything else (just as the `regex` crate rejects, e.g., an
unbalanced `(`); `matchE` is a backtracking matcher for the fragment,
anchored at both ends, mirroring `Regex::is_match` of `^…$`. -/

/-- Atom of the regex fragment produced by the glob compilation. -/
inductive RAtom where
  /-- a literal character -/
  | lit (c : Char)
  /-- the metacharacter `.`: any character except newline -/
  | dot
  /-- the class `[^/]`: any character except the path separator -/
  | notSlash
  /-- any character whatsoever (used only by the specified semantics) -/
  | any
  deriving DecidableEq, Repr

/-- Characters of a pattern that the `regex` crate treats as themselves.
Parenthesised groups, classes other than `[^/]`, anchors, and the other regex
metacharacters are outside the modelled fragment and make `compileGlob` fail. -/
def isSafeLit (c : Char) : Bool :=
  c.isAlphanum || c = '/' || c = '-' || c = '_'

/-- Compile the generated regex text into a list of possibly-starred atoms;
`none` models a regex-compilation failure. -/
def compileGlob : List Char → Option (List (RAtom × Bool))
  | [] => some []
  | '.' :: '*' :: rest => (compileGlob rest).map (fun es => (RAtom.dot, true) :: es)
  | '.' :: rest => (compileGlob rest).map (fun es => (RAtom.dot, false) :: es)
  | '[' :: '^' :: '/' :: ']' :: '*' :: rest =>
    (compileGlob rest).map (fun es => (RAtom.notSlash, true) :: es)
  | '[' :: '^' :: '/' :: ']' :: rest =>
    (compileGlob rest).map (fun es => (RAtom.notSlash, false) :: es)
  | c :: '*' :: rest =>
    if isSafeLit c then (compileGlob rest).map (fun es => (RAtom.lit c, true) :: es)
    else none
  | c :: rest =>
    if isSafeLit c then (compileGlob rest).map (fun es => (RAtom.lit c, false) :: es)
    else none

/-- Does this atom match this character? -/
def matchAtom : RAtom → Char → Bool
  | .lit c, d => c = d
  | .dot, d => d ≠ '\n'
  | .notSlash, d => d ≠ '/'
  | .any, _ => true

/-- Anchored backtracking matcher for a list of possibly-starred atoms, with
fuel.  Every recursive call strictly decreases `elems.length + cs.length`, so
fuel `elems.length + cs.length + 1` always suffices. -/
def matchE : Nat → List (RAtom × Bool) → List Char → Bool
  | 0, _, _ => false
  | _ + 1, [], cs => cs.isEmpty
  | _ + 1, (_, false) :: _, [] => false
  | f + 1, (a, false) :: es, c :: cs => matchAtom a c && matchE f es cs
  | f + 1, (a, true) :: es, cs =>
    matchE f es cs ||
      match cs with
      | [] => false
      | c :: cs' => matchAtom a c && matchE f ((a, true) :: es) cs'

/-- Full-string match of a compiled glob regex (`Regex::is_match` of `^…$`). -/
def matchElems (es : List (RAtom × Bool)) (cs : List Char) : Bool :=
  matchE (es.length + cs.length + 1) es cs

/-- The wildcard-free fallback of `glob_match`:
`path == pattern || path.starts_with(format!("{}/", pattern))`. -/
def literalMatch (pattern path : List Char) : Bool :=
  path == pattern || (pattern ++ ['/']).isPrefixOf path

/-- The text the code feeds to `Regex::new` (without the `^…$` anchors, which
`matchElems` accounts for): `pattern.replace("**", ".*").replace('*', "[^/]*")`.
Note the second replace also rewrites the `*` of any `.*` produced by the
first one. -/
def globReplace (pattern : List Char) : List Char :=
  replaceL (replaceL pattern ['*', '*'] ['.', '*']) ['*'] ['[', '^', '/', ']', '*']

/-- Translation of `glob_match` (src/template/config.rs:143-152).  When the
pattern contains `*`, the compiled regex is tried; on compilation failure the
code falls through to the exact-or-directory-prefix comparison on the
original pattern. -/
def glob_match (pattern path : List Char) : Bool :=
  if pattern.contains '*' then
    match compileGlob (globReplace pattern) with
    | some es => matchElems es path
    | none => literalMatch pattern path
  else
    literalMatch pattern path

/-- Tokens of the pattern language as the spec describes it: `**` matches any
character sequence (separators included), a single `*` any sequence without
the separator, every other character itself. -/
def specTokens : List Char → List (RAtom × Bool)
  | [] => []
  | '*' :: '*' :: rest => (RAtom.any, true) :: specTokens rest
  | '*' :: rest => (RAtom.notSlash, true) :: specTokens rest
  | c :: rest => (RAtom.lit c, false) :: specTokens rest

/-- The pattern-matcher semantics stated by the spec (section 4.2), written
from the spec's words for comparison with `glob_match`: a wildcard-free
pattern matches exactly or as a directory prefix; a pattern with wildcards
must match the whole path with `**` spanning separators and `*` confined to
one path component. -/
def spec_glob_match (pattern path : List Char) : Bool :=
  if pattern.contains '*' then
    matchElems (specTokens pattern) path
  else
    literalMatch pattern path

/-! ## Manifest model (`src/template/config.rs`) -/

/-- Translation of the `Placeholder` enum. -/
inductive Placeholder where
  /-- a string placeholder with prompt, optional default, regex and choices -/
  | string (prompt : List Char) (default : Option (List Char))
      (regex : Option (List Char)) (choices : Option (List (List Char)))
  /-- a boolean placeholder with prompt and optional default -/
  | bool (prompt : List Char) (default : Option Bool)
  deriving DecidableEq, Repr

/-- Rust `bool::to_string`. -/
def boolText (b : Bool) : List Char :=
  if b then ['t', 'r', 'u', 'e'] else ['f', 'a', 'l', 's', 'e']

/-- Translation of `Placeholder::default_value`. -/
def default_value : Placeholder → Option (List Char)
  | .string _ d _ _ => d
  | .bool _ d => d.map boolText

/-- Translation of the `TemplateMetadata` struct. -/
structure TemplateMetadata where
  name : List Char
  description : Option (List Char) := none
  version : Option (List Char) := none
  «include» : List (List Char) := []
  exclude : List (List Char) := []
  ignore : List (List Char) := []
  deriving DecidableEq, Repr

/-- Translation of the `TemplateConfig` struct (the `conditional` section is
parsed but never consulted by generation; it is carried only as data). -/
structure TemplateConfig where
  template : TemplateMetadata
  placeholders : List (List Char × Placeholder) := []
  deriving DecidableEq, Repr

/-- The manifest descriptor filename, always ignored by the generator. -/
def configFileName : List Char := "cargo-polkajam.toml".data

/-- Translation of `TemplateConfig::should_ignore_file`. -/
def should_ignore_file (cfg : TemplateConfig) (path : List Char) : Bool :=
  cfg.template.ignore.any (fun pat => glob_match pat path) || path == configFileName

/-- Translation of `TemplateConfig::should_process_file`. -/
def should_process_file (cfg : TemplateConfig) (path : List Char) : Bool :=
  if cfg.template.«include».isEmpty then
    !should_ignore_file cfg path
  else
    cfg.template.«include».any (fun pat => glob_match pat path)

/-! ## Variable collector (`collect_predefined_variables` in new.rs) -/

/-- Map-insert with overwrite, the behaviour of `HashMap::insert` /
`HashMap::extend` for one key, on an association list. -/
def insertVar (m : List (List Char × List Char)) (k v : List Char) :
    List (List Char × List Char) :=
  if m.any (fun kv => kv.1 = k) then
    m.map (fun kv => if kv.1 = k then (k, v) else kv)
  else
    m ++ [(k, v)]

/-- Lookup in the association-list map. -/
def lookupVar (m : List (List Char × List Char)) (k : List Char) :
    Option (List Char) :=
  match m with
  | [] => none
  | kv :: rest => if kv.1 = k then some kv.2 else lookupVar rest k

/-- Translation of `collect_predefined_variables` (new.rs:127-145).  The
`--define` flags are split at the first `=` (flags without `=` fall through
the `if let` silently); then the values file — modelled here as its parsed
key/value list, since reading and TOML-parsing the file are the only failure
points of the Rust function — is inserted on top, overwriting collisions
(`HashMap::extend`). -/
def collect_predefined_variables (define : List (List Char))
    (valuesFile : Option (List (List Char × List Char))) :
    List (List Char × List Char) :=
  let vars := define.foldl
    (fun m d =>
      match splitOnce '=' d with
      | some (k, v) => insertVar m k v
      | none => m)
    []
  match valuesFile with
  | some values => values.foldl (fun m kv => insertVar m kv.1 kv.2) vars
  | none => vars

/-! ## Project-name validation -/

/-- The anchored regex `^[a-z][a-z0-9_-]*$` used by both validators. -/
def matchesNameRegex (name : List Char) : Bool :=
  match name with
  | [] => false
  | c :: rest =>
    c.isLower && rest.all (fun d => d.isLower || d.isDigit || d = '_' || d = '-')

/-- The reserved identifiers of `src/project/validation.rs`. -/
def reservedNames : List (List Char) :=
  ["self".data, "super".data, "crate".data, "Self".data,
   "test".data, "std".data, "core".data, "alloc".data]

/-- Translation of `validate_project_name` in `src/project/validation.rs`
(empty check, regex, reserved identifiers, 64-byte cap, in source order);
`true` means the name is accepted. -/
def validate_project_name (name : List Char) : Bool :=
  if name.isEmpty then false
  else if !matchesNameRegex name then false
  else if reservedNames.contains name then false
  else if name.length > 64 then false
  else true

/-- Translation of the file-local `validate_project_name` in
`src/cli/commands/new.rs:147-156` — the validator `execute` actually calls.
It checks only the regex. -/
def validate_project_name_new (name : List Char) : Bool :=
  matchesNameRegex name

/-- Derivation of the `crate_name` binding in `execute`:
`project_name.replace('-', "_")`. -/
def crateNameOf (name : List Char) : List Char :=
  name.map (fun c => if c = '-' then '_' else c)

/-! ## Case-conversion transforms

Modelled from the spec: the five case-conversion filters of
`src/template/engine.rs` delegate to the external `heck` crate, whose source
is not part of this repository.  The spec describes them as pure
string-to-string conversions to PascalCase, snake_case, kebab-case,
lowerCamelCase and UpperCamelCase; they are modelled here by heck's
word-splitting algorithm (split at non-alphanumeric characters, then inside
an alphanumeric run start a new word before an uppercase letter that follows
a lowercase one and before the last uppercase letter of an uppercase run that
precedes a lowercase one), restricted to the ASCII case mapping of Lean's
`Char.toLower`/`Char.toUpper`. -/

/-- Scanning mode of the word splitter: what the previous cased character of
the current word was. -/
inductive WordMode where
  | boundary
  | lower
  | upper
  deriving DecidableEq, Repr

/-- Split one separator-free run into case-delimited words.  `acc` holds the
characters of the current word read so far. -/
def splitWordsAux : WordMode → List Char → List Char → List (List Char)
  | _, _, [] => []
  | _, acc, [c] => [acc ++ [c]]
  | mode, acc, c :: next :: rest =>
    let nextMode : WordMode :=
      if c.isLower then .lower else if c.isUpper then .upper else mode
    if nextMode = .lower ∧ next.isUpper then
      (acc ++ [c]) :: splitWordsAux .boundary [] (next :: rest)
    else if mode = .upper ∧ c.isUpper ∧ next.isLower then
      acc :: splitWordsAux .boundary [c] (next :: rest)
    else
      splitWordsAux nextMode (acc ++ [c]) (next :: rest)

/-- Split a list at every element satisfying `p`, dropping the separators and
keeping empty segments — Rust's `str::split` with a predicate. -/
def splitSep (p : Char → Bool) : List Char → List (List Char)
  | [] => [[]]
  | c :: rest =>
    if p c then [] :: splitSep p rest
    else
      match splitSep p rest with
      | [] => [[c]]
      | w :: ws => (c :: w) :: ws

/-- All words of a string: split at non-alphanumeric characters, then at case
boundaries.  Empty segments contribute no words. -/
def splitWords (s : List Char) : List (List Char) :=
  ((splitSep (fun c => !c.isAlphanum) s).map (splitWordsAux .boundary [])).flatten

/-- Lowercase an entire word. -/
def lowercaseWord (w : List Char) : List Char :=
  w.map Char.toLower

/-- Uppercase the first character, lowercase the rest. -/
def capitalizeWord : List Char → List Char
  | [] => []
  | c :: rest => c.toUpper :: rest.map Char.toLower

/-- heck's `to_snake_case`: lowercased words joined by `_`. -/
def toSnakeCase (s : List Char) : List Char :=
  List.intercalate ['_'] ((splitWords s).map lowercaseWord)

/-- heck's `to_kebab_case`: lowercased words joined by `-`. -/
def toKebabCase (s : List Char) : List Char :=
  List.intercalate ['-'] ((splitWords s).map lowercaseWord)

/-- heck's `to_pascal_case`: capitalized words, concatenated. -/
def toPascalCase (s : List Char) : List Char :=
  ((splitWords s).map capitalizeWord).flatten

/-- heck's `to_upper_camel_case` is the same conversion as `to_pascal_case`. -/
def toUpperCamelCase (s : List Char) : List Char :=
  toPascalCase s

/-- heck's `to_lower_camel_case`: first word lowercased, the rest
capitalized, concatenated. -/
def toLowerCamelCase (s : List Char) : List Char :=
  match splitWords s with
  | [] => []
  | w :: ws => lowercaseWord w ++ (ws.map capitalizeWord).flatten

/-! ## Rendering engine

Modelled from the spec: `TemplateEngine` (src/template/engine.rs) delegates
to the external `liquid` crate, whose source is not part of this repository.
The spec (section 4.3) requires: parsing the text for variable-interpolation
markers, failing with a parse error on malformed syntax (an unclosed marker,
an unknown transform name) and with an evaluation error when an interpolated
variable is unbound; the five named transforms apply to the interpolated
value.  The model below renders text with `\x7b\x7b name \x7d\x7d` and
`\x7b\x7b name | transform \x7d\x7d` markers accordingly; text without
markers is emitted unchanged. -/

/-- Rendering failure: parse errors and evaluation errors. -/
inductive RenderErr where
  | parse
  | eval
  deriving DecidableEq, Repr

/-- The opening-brace character of an interpolation marker. -/
def lbrace : Char := '\x7b'

/-- The closing-brace character of an interpolation marker. -/
def rbrace : Char := '\x7d'

/-- The marker-opening digraph. -/
def markerOpen : List Char := [lbrace, lbrace]

/-- The marker-closing digraph. -/
def markerClose : List Char := [rbrace, rbrace]

/-- Strip leading and trailing whitespace. -/
def trimSpaces (l : List Char) : List Char :=
  ((l.dropWhile Char.isWhitespace).reverse.dropWhile Char.isWhitespace).reverse

/-- Look up one of the five registered case-conversion filters by name. -/
def filterOf (name : List Char) : Option (List Char → List Char) :=
  if name = "pascal_case".data then some toPascalCase
  else if name = "snake_case".data then some toSnakeCase
  else if name = "kebab_case".data then some toKebabCase
  else if name = "camel_case".data then some toLowerCamelCase
  else if name = "upper_camel_case".data then some toUpperCamelCase
  else none

/-- Scan for the closing digraph, returning the marker body and the remaining
text. -/
def findClose : List Char → Option (List Char × List Char)
  | [] => none
  | c :: rest =>
    if c = rbrace ∧ rest.head? = some rbrace then
      some ([], rest.tail)
    else
      (findClose rest).map (fun p => (c :: p.1, p.2))

/-- Evaluate one interpolation marker body against the bindings. -/
def evalMarker (vars : List (List Char × List Char)) (body : List Char) :
    Except RenderErr (List Char) :=
  match splitOnce '|' body with
  | none =>
    match lookupVar vars (trimSpaces body) with
    | some v => .ok v
    | none => .error .eval
  | some (namePart, filterPart) =>
    match filterOf (trimSpaces filterPart) with
    | none => .error .parse
    | some f =>
      match lookupVar vars (trimSpaces namePart) with
      | some v => .ok (f v)
      | none => .error .eval

/-- Fuel-indexed renderer; each step consumes at least one input character,
so `length + 1` fuel always suffices. -/
def renderF (vars : List (List Char × List Char)) : Nat → List Char →
    Except RenderErr (List Char)
  | 0, _ => .ok []
  | _ + 1, [] => .ok []
  | f + 1, c :: rest =>
    if markerOpen.isPrefixOf (c :: rest) then
      match findClose rest.tail with
      | none => .error .parse
      | some (body, after) =>
        match evalMarker vars body with
        | .error e => .error e
        | .ok v => (renderF vars f after).map (fun t => v ++ t)
    else
      (renderF vars f rest).map (fun t => c :: t)

/-- Model of `TemplateEngine::render`. -/
def renderText (vars : List (List Char × List Char)) (s : List Char) :
    Except RenderErr (List Char) :=
  renderF vars (s.length + 1) s

/-- Translation of `TemplateEngine::render_filename`: filenames without an
interpolation marker are returned unchanged without touching the renderer. -/
def render_filename (vars : List (List Char × List Char)) (name : List Char) :
    Except RenderErr (List Char) :=
  if containsSub markerOpen name then renderText vars name else .ok name

/-! ## Project generator (`src/project/generator.rs`) -/

/-- The template-marker file suffix `".liquid"`. -/
def liquidSuffix : List Char := ".liquid".data

/-- Translation of `ProjectGenerator::process_filename`: strip a trailing
`.liquid`, then render the remaining name if it contains a marker. -/
def process_filename (vars : List (List Char × List Char)) (filename : List Char) :
    Except RenderErr (List Char) :=
  let result := if liquidSuffix.isSuffixOf filename then
    filename.take (filename.length - 7)
  else filename
  if containsSub markerOpen result then render_filename vars result else .ok result

/-- The filename component of a relative path: everything after the last
separator. -/
def fileNameOf (p : List Char) : List Char :=
  ((p.reverse.takeWhile (fun c => c ≠ '/'))).reverse

/-- Rust `Path::extension`: the part of the filename after its last dot, or
none when there is no dot or the only dot is the leading one. -/
def extensionOf (p : List Char) : Option (List Char) :=
  let f := fileNameOf p
  let revExt := f.reverse.takeWhile (fun c => c ≠ '.')
  let revStem := f.reverse.dropWhile (fun c => c ≠ '.')
  match revStem with
  | [] => none
  | _ :: stemRest => if stemRest = [] then none else some revExt.reverse

/-- Does the source path carry the `liquid` template extension? -/
def isLiquidPath (p : List Char) : Bool :=
  extensionOf p = some "liquid".data

/-- An entry of the template tree handed to the generator: the walk yields
each entry's path relative to the template root together with its kind. -/
inductive FileKind where
  /-- a directory -/
  | dir
  /-- a file with its text content -/
  | file (content : List Char)
  deriving DecidableEq, Repr

/-- An entry materialized under the output root. -/
inductive OutEntry where
  /-- a created directory -/
  | dir (path : List Char)
  /-- a written file -/
  | file (path : List Char) (content : List Char)
  deriving DecidableEq, Repr

/-- The proper ancestor directories of a relative path, outermost first:
`ancestorsOf "a/b/c" = ["a", "a/b"]`. -/
def ancestorsOf (p : List Char) : List (List Char) :=
  let comps := splitSep (fun c => c = '/') p
  (List.range (comps.length - 1)).map (fun i => List.intercalate ['/'] (comps.take (i + 1)))

/-- Create one directory if it does not exist yet (`fs::create_dir_all` is a
no-op on an existing directory). -/
def addDir (st : List OutEntry) (p : List Char) : List OutEntry :=
  if st.contains (OutEntry.dir p) then st else st ++ [OutEntry.dir p]

/-- Model of `fs::create_dir_all`: create the missing ancestors, then the
directory itself. -/
def mkdirAll (st : List OutEntry) (p : List Char) : List OutEntry :=
  (ancestorsOf p ++ [p]).foldl addDir st

/-- Translation of `ProjectGenerator::generate` (and the `process_file` it
calls), folded over the walk of the template tree.  The walk order is an
input; entries with an empty relative path (the root itself) and ignored
entries are skipped; a directory entry is created with its ancestors; a file
entry first gets its parent directories, then is rendered (when it has the
`.liquid` extension or `should_process_file` holds for its pre-rename path)
or byte-copied.  The first failure stops the walk, keeping the writes made so
far (generation is not transactional). -/
def generate (cfg : TemplateConfig) (vars : List (List Char × List Char)) :
    List (List Char × FileKind) → List OutEntry → List OutEntry × Option RenderErr
  | [], st => (st, none)
  | (p, k) :: rest, st =>
    if p = [] then generate cfg vars rest st
    else if should_ignore_file cfg p then generate cfg vars rest st
    else
      match process_filename vars p with
      | .error e => (st, some e)
      | .ok name =>
        match k with
        | .dir => generate cfg vars rest (mkdirAll st name)
        | .file content =>
          let st' := (ancestorsOf name).foldl addDir st
          if isLiquidPath p || should_process_file cfg p then
            match renderText vars content with
            | .error e => (st', some e)
            | .ok rendered => generate cfg vars rest (st' ++ [OutEntry.file name rendered])
          else
            generate cfg vars rest (st' ++ [OutEntry.file name content])

/-! ## The `new` command flow (`src/cli/commands/new.rs`)

The portion of `execute` from variable collection to generation, with the
interactive prompting replaced by the `--defaults` path (prompting is
blocking I/O outside this model) and the filesystem state of the output root
reduced to whether it already exists. -/

/-- Errors surfaced by the modelled `execute` flow. -/
inductive ExecErr where
  /-- `CargoJamError::InvalidProjectName` -/
  | invalidProjectName
  /-- `CargoJamError::ProjectExists` -/
  | projectExists
  /-- a rendering failure bubbled up from generation -/
  | render (e : RenderErr)
  deriving DecidableEq, Repr

/-- Defaults application of `execute` (new.rs:68-76): every placeholder not
already bound receives its manifest default, when it has one. -/
def applyDefaults (cfg : TemplateConfig) (vars : List (List Char × List Char)) :
    List (List Char × List Char) :=
  cfg.placeholders.foldl
    (fun m kp =>
      if (lookupVar m kp.1).isSome then m
      else
        match default_value kp.2 with
        | some d => insertVar m kp.1 d
        | none => m)
    vars

/-- Translation of `execute` (new.rs:20-113) after template fetching: collect
preset variables, validate the chosen name with the file-local validator,
inject `project_name` and `crate_name`, apply manifest defaults, refuse an
existing output directory, and only then generate.  The returned list holds
everything written under the output root. -/
def executeNew (define : List (List Char))
    (valuesFile : Option (List (List Char × List Char)))
    (name : List Char) (cfg : TemplateConfig) (outputExists : Bool)
    (entries : List (List Char × FileKind)) :
    List OutEntry × Option ExecErr :=
  let vars := collect_predefined_variables define valuesFile
  if !validate_project_name_new name then ([], some .invalidProjectName)
  else
    let vars := insertVar vars "project_name".data name
    let vars := insertVar vars "crate_name".data (crateNameOf name)
    let vars := applyDefaults cfg vars
    if outputExists then ([], some .projectExists)
    else
      match generate cfg vars entries [] with
      | (st, none) => (st, none)
      | (st, some e) => (st, some (.render e))

/-! ## Auxiliary definitions for the stated properties -/

/-- The output path of a materialized entry. -/
def outPath : OutEntry → List Char
  | .dir p => p
  | .file p _ => p

/-- A relative path that the generator's renaming leaves unchanged: no
interpolation marker and no `.liquid` suffix. -/
def noMarkerName (p : List Char) : Bool :=
  !containsSub markerOpen p && !liquidSuffix.isSuffixOf p

/-- A literal-copy entry: a directory, or a file whose content carries no
interpolation marker (neither an expression nor a tag opener). -/
def noMarkerContent : FileKind → Bool
  | .dir => true
  | .file c => !containsSub markerOpen c && !containsSub [lbrace, '%'] c

/-- Well-formedness of a walk: paths never repeat, and every entry that the
generator will materialize is preceded by its ancestor directories, all of
them non-ignored.  `WalkDir` yields a directory before its contents, so every
walk of a real template tree whose ignore rules do not cut a materialized
entry's ancestors satisfies this. -/
def wfWalkAux (cfg : TemplateConfig) (pre : List (List Char × FileKind)) :
    List (List Char × FileKind) → Bool
  | [] => true
  | (p, k) :: rest =>
    (p.isEmpty || should_ignore_file cfg p ||
      ((ancestorsOf p).all (fun a =>
          !a.isEmpty && pre.contains (a, FileKind.dir) && !should_ignore_file cfg a) &&
        pre.all (fun e => e.1 ≠ p))) &&
    wfWalkAux cfg (pre ++ [(p, k)]) rest

/-- A literal-copy template walk: well-formed, and no entry name or file
content contains an interpolation marker or the `.liquid` suffix. -/
def literalTemplate (cfg : TemplateConfig)
    (entries : List (List Char × FileKind)) : Bool :=
  entries.all (fun e => noMarkerName e.1 && noMarkerContent e.2) &&
    wfWalkAux cfg [] entries

/-- The materialization the round-trip property predicts for one entry:
nothing for the root or an ignored path, otherwise the entry itself. -/
def literalOutEntry (cfg : TemplateConfig) (e : List Char × FileKind) :
    Option OutEntry :=
  if e.1.isEmpty || should_ignore_file cfg e.1 then none
  else
    match e.2 with
    | .dir => some (OutEntry.dir e.1)
    | .file c => some (OutEntry.file e.1 c)

/-- The output the round-trip property predicts: every non-root, non-ignored
entry materialized at its own path with its own content. -/
def literalOut (cfg : TemplateConfig)
    (entries : List (List Char × FileKind)) : List OutEntry :=
  entries.filterMap (literalOutEntry cfg)

/-- A manifest whose ignore list is `["*.secret"]`. -/
def secretConfig : TemplateConfig :=
  { template := { name := "demo".data, ignore := ["*.secret".data] } }

/-- A template walk containing the manifest descriptor and a `config.secret`
file next to ordinary entries. -/
def secretEntries : List (List Char × FileKind) :=
  [("cargo-polkajam.toml".data, FileKind.file "name = demo".data),
   ("config.secret".data, FileKind.file "token".data),
   ("src".data, FileKind.dir),
   ("src/main.rs".data, FileKind.file "fn main()".data)]

/-- Strings shaped like PascalCase output: a sequence of words, each an
uppercase letter followed by lowercase letters, where a one-letter word can
only be last (two adjacent uppercase letters are not PascalCase). -/
inductive PascalWords : List Char → Prop where
  /-- the empty sequence of words -/
  | nil : PascalWords []
  /-- one more word in front -/
  | cons (u : Char) (ls rest : List Char) :
      u.isUpper = true → (∀ c ∈ ls, c.isLower = true) → PascalWords rest →
      (ls = [] → rest = []) → PascalWords (u :: (ls ++ rest))

/-- An already-PascalCase string: nonempty and shaped like PascalCase. -/
def PascalConforming (s : List Char) : Prop :=
  s ≠ [] ∧ PascalWords s

/-- An already-lowerCamelCase string: a nonempty lowercase run followed by
PascalCase words. -/
def CamelConforming (s : List Char) : Prop :=
  ∃ l rest, s = l ++ rest ∧ l ≠ [] ∧ (∀ c ∈ l, c.isLower = true) ∧ PascalWords rest

/-! ## Character-level facts -/

theorem toNat_ofNatAux (n : Nat) (h : n.isValidChar) : (Char.ofNatAux n h).toNat = n := by
  simp only [Char.ofNatAux, Char.toNat, UInt32.toNat]
  simp only [BitVec.toNat_ofNatLt]

theorem uint32_le_iff (a b : UInt32) : (a ≤ b) ↔ a.toNat ≤ b.toNat := Iff.rfl

theorem isUpper_iff (c : Char) : c.isUpper = true ↔ 65 ≤ c.toNat ∧ c.toNat ≤ 90 := by
  simp only [Char.isUpper, Bool.and_eq_true, decide_eq_true_eq, ge_iff_le]
  rw [uint32_le_iff, uint32_le_iff]
  exact ⟨fun ⟨h1, h2⟩ => ⟨h1, h2⟩, fun ⟨h1, h2⟩ => ⟨h1, h2⟩⟩

theorem isLower_iff (c : Char) : c.isLower = true ↔ 97 ≤ c.toNat ∧ c.toNat ≤ 122 := by
  simp only [Char.isLower, Bool.and_eq_true, decide_eq_true_eq, ge_iff_le]
  rw [uint32_le_iff, uint32_le_iff]
  exact ⟨fun ⟨h1, h2⟩ => ⟨h1, h2⟩, fun ⟨h1, h2⟩ => ⟨h1, h2⟩⟩

theorem isDigit_iff (c : Char) : c.isDigit = true ↔ 48 ≤ c.toNat ∧ c.toNat ≤ 57 := by
  simp only [Char.isDigit, Bool.and_eq_true, decide_eq_true_eq, ge_iff_le]
  rw [uint32_le_iff, uint32_le_iff]
  exact ⟨fun ⟨h1, h2⟩ => ⟨h1, h2⟩, fun ⟨h1, h2⟩ => ⟨h1, h2⟩⟩

theorem isAlphanum_iff (c : Char) : c.isAlphanum = true ↔
    (65 ≤ c.toNat ∧ c.toNat ≤ 90) ∨ (97 ≤ c.toNat ∧ c.toNat ≤ 122) ∨
      (48 ≤ c.toNat ∧ c.toNat ≤ 57) := by
  simp only [Char.isAlphanum, Char.isAlpha, Bool.or_eq_true]
  rw [isUpper_iff, isLower_iff, isDigit_iff]
  tauto

theorem toNat_toLower (c : Char) :
    (Char.toLower c).toNat =
      if 65 ≤ c.toNat ∧ c.toNat ≤ 90 then c.toNat + 32 else c.toNat := by
  simp only [Char.toLower]
  split
  · next h =>
    have hvalid : Nat.isValidChar (c.toNat + 32) := by
      left; simp only [Char.toNat] at h ⊢; omega
    rw [Char.ofNat, dif_pos hvalid, toNat_ofNatAux]
  · rfl

theorem toNat_toUpper (c : Char) :
    (Char.toUpper c).toNat =
      if 97 ≤ c.toNat ∧ c.toNat ≤ 122 then c.toNat - 32 else c.toNat := by
  simp only [Char.toUpper]
  split
  · next h =>
    have hvalid : Nat.isValidChar (c.toNat - 32) := by
      left; simp only [Char.toNat] at h ⊢; omega
    rw [Char.ofNat, dif_pos hvalid, toNat_ofNatAux]
  · rfl

theorem toLower_not_upper (c : Char) : (Char.toLower c).isUpper = false := by
  rw [← Bool.not_eq_true, isUpper_iff, toNat_toLower]
  split <;> omega

theorem toLower_eq_self (c : Char) (h : c.isUpper = false) : Char.toLower c = c := by
  simp only [Char.toLower]
  rw [if_neg]
  intro hc
  rw [← Bool.not_eq_true, isUpper_iff] at h
  exact h ⟨hc.1, hc.2⟩

theorem toUpper_eq_self (c : Char) (h : c.isLower = false) : Char.toUpper c = c := by
  simp only [Char.toUpper]
  rw [if_neg]
  intro hc
  rw [← Bool.not_eq_true, isLower_iff] at h
  exact h ⟨hc.1, hc.2⟩

theorem isAlphanum_toLower (c : Char) (h : c.isAlphanum = true) :
    (Char.toLower c).isAlphanum = true := by
  rw [isAlphanum_iff] at h ⊢
  rw [toNat_toLower]
  split <;> omega

theorem toLower_toLower (c : Char) : Char.toLower (Char.toLower c) = Char.toLower c :=
  toLower_eq_self _ (toLower_not_upper c)

theorem lower_not_upper (c : Char) (h : c.isLower = true) : c.isUpper = false := by
  rw [isLower_iff] at h
  rw [← Bool.not_eq_true, isUpper_iff]
  omega

theorem upper_not_lower (c : Char) (h : c.isUpper = true) : c.isLower = false := by
  rw [isUpper_iff] at h
  rw [← Bool.not_eq_true, isLower_iff]
  omega

theorem isAlphanum_of_upper (c : Char) (h : c.isUpper = true) : c.isAlphanum = true := by
  rw [isUpper_iff] at h; rw [isAlphanum_iff]; omega

theorem isAlphanum_of_lower (c : Char) (h : c.isLower = true) : c.isAlphanum = true := by
  rw [isLower_iff] at h; rw [isAlphanum_iff]; omega

/-! ## C1 and C2: the pattern matcher against its specified semantics -/

/-- C1: the pattern matcher does not implement the specified wildcard
semantics.  The chained replace rewrites `**` first to `.*` and then — the
second replace also hitting the star it just produced — to `.[^/]*`, so a
double wildcard matches one arbitrary character followed by a
separator-free run instead of any sequence including separators: `**`
fails to match `a/b` although the spec requires it to.  Unescaped regex
metacharacters are a second divergence: in `*.rs` the dot matches any
character, so `axrs` matches although the specified semantics (a literal
dot) rejects it. -/
theorem glob_match_deviates_from_spec :
    globReplace "**".data = ".[^/]*".data ∧
    glob_match "**".data "a/b".data = false ∧
    spec_glob_match "**".data "a/b".data = true ∧
    glob_match "*.rs".data "axrs".data = true ∧
    spec_glob_match "*.rs".data "axrs".data = false := by decide

/-- C2 counterexample: a pattern whose regex fails to compile does not become
never-matching.  For the pattern `(*` the generated regex `^([^/]*$` is
rejected (unbalanced group), yet `glob_match` answers `true` on the path
`(*`, because compilation failure falls through to the exact-or-prefix
comparison. -/
theorem glob_match_failed_compile_matches :
    ("(*".data.contains '*') = true ∧
    compileGlob (globReplace "(*".data) = none ∧
    glob_match "(*".data "(*".data = true := by decide

/-- C2 amended: when the wildcard compilation of a pattern fails, the matcher
raises no error and falls back to the wildcard-free semantics — the pattern
matches exactly itself or any path having it as a directory prefix — rather
than matching nothing. -/
theorem glob_match_failed_compile_fallback (p path : List Char)
    (h1 : p.contains '*' = true) (h2 : compileGlob (globReplace p) = none) :
    glob_match p path = literalMatch p path := by
  simp only [glob_match, h1, h2, if_true]

/-- Witness for the amended C2: the hypotheses hold at the pattern `(*`,
and there the fallback matches the path `(*/x`. -/
theorem glob_match_failed_compile_fallback_witness :
    ("(*".data.contains '*') = true ∧
    compileGlob (globReplace "(*".data) = none ∧
    glob_match "(*".data "(*/x".data = literalMatch "(*".data "(*/x".data ∧
    literalMatch "(*".data "(*/x".data = true :=
  ⟨by decide, by decide,
    glob_match_failed_compile_fallback _ _ (by decide) (by decide), by decide⟩

/-! ## C5: project-name validation actually applied by the new-project flow -/

/-- C5: the validation applied before generation is the file-local validator
of new.rs, which checks only the regex `^[a-z][a-z0-9_-]*$`.  It accepts the
reserved identifier `self` and a 65-character name, both of which the claim
(and the unused full validator of src/project/validation.rs, shown alongside)
rejects.  The scenario parts of the claim hold: `My-Service` is rejected,
`my-service` accepted, and its module identifier is `my_service`. -/
theorem validate_project_name_applied_eval :
    validate_project_name_new "self".data = true ∧
    validate_project_name "self".data = false ∧
    validate_project_name_new (List.replicate 65 'a') = true ∧
    validate_project_name (List.replicate 65 'a') = false ∧
    validate_project_name_new "My-Service".data = false ∧
    validate_project_name_new "my-service".data = true ∧
    crateNameOf "my-service".data = "my_service".data := by decide

/-! ## C7 and the general half of C8: the file-selection predicates -/

/-- C7: `should_process_file` renders by include-match when include patterns
exist, and by non-ignoredness otherwise. -/
theorem should_process_file_spec (cfg : TemplateConfig) (path : List Char) :
    should_process_file cfg path = true ↔
      (if cfg.template.«include» = [] then should_ignore_file cfg path = false
       else ∃ pat ∈ cfg.template.«include», glob_match pat path = true) := by
  unfold should_process_file
  rcases h : cfg.template.«include» with _ | ⟨p, ps⟩
  · simp [h, List.isEmpty]
  · simp only [h, List.isEmpty, if_false, Bool.false_eq_true]
    rw [if_neg (by simp)]
    simp [List.any_eq_true]

/-! ## C10: `--define` flags without `=` are skipped silently -/

theorem splitOnce_of_not_contains (sep : Char) (d : List Char)
    (h : d.contains sep = false) : splitOnce sep d = none := by
  induction d with
  | nil => rfl
  | cons c rest ih =>
    rw [List.contains_cons, Bool.or_eq_false_iff] at h
    have hc : ¬ c = sep := by
      intro he
      rw [he] at h
      simp at h
    simp only [splitOnce, if_neg hc, ih h.2, Option.map_none']

/-- C10: an explicit `--define` argument with no `=` separator contributes no
binding and causes no failure — collecting with it is collecting without it. -/
theorem collect_skips_define_without_eq (ds1 ds2 : List (List Char))
    (d : List Char) (vf : Option (List (List Char × List Char)))
    (h : d.contains '=' = false) :
    collect_predefined_variables (ds1 ++ d :: ds2) vf =
      collect_predefined_variables (ds1 ++ ds2) vf := by
  unfold collect_predefined_variables
  rw [List.foldl_append, List.foldl_append, List.foldl_cons,
    splitOnce_of_not_contains '=' d h]

/-- Witness for C10 at the argument `novalue` next to a normal `x=1`. -/
theorem collect_skips_define_without_eq_witness :
    ("novalue".data.contains '=') = false ∧
    collect_predefined_variables ["novalue".data, "x=1".data] none =
      collect_predefined_variables ["x=1".data] none :=
  ⟨by decide, collect_skips_define_without_eq [] ["x=1".data] _ none (by decide)⟩

/-! ## C3: values-file bindings override explicit key=value pairs -/

theorem lookupVar_mapSubst_self (m : List (List Char × List Char)) (k v : List Char)
    (h : m.any (fun kv => kv.1 = k) = true) :
    lookupVar (m.map (fun kv => if kv.1 = k then (k, v) else kv)) k = some v := by
  induction m with
  | nil => simp at h
  | cons kv rest ih =>
    rw [List.any_cons, Bool.or_eq_true] at h
    by_cases hk : kv.1 = k
    · simp only [List.map_cons, if_pos hk, lookupVar, if_pos rfl]
      simp
    · rcases h with h | h
      · simp [hk] at h
      · simp only [List.map_cons, if_neg hk, lookupVar, if_neg hk, ih h]

theorem lookupVar_insert_self (m : List (List Char × List Char)) (k v : List Char) :
    lookupVar (insertVar m k v) k = some v := by
  unfold insertVar
  by_cases h : m.any (fun kv => kv.1 = k) = true
  · rw [if_pos h]
    exact lookupVar_mapSubst_self m k v h
  · rw [if_neg h]
    induction m with
    | nil => simp [lookupVar]
    | cons kv rest ih =>
      have hkv : ¬ kv.1 = k := by
        intro he
        exact h (by simp [List.any_cons, he])
      have hrest : ¬ rest.any (fun kv => kv.1 = k) = true := by
        intro he
        exact h (by simp [List.any_cons, he])
      simp only [List.cons_append, lookupVar, if_neg hkv]
      exact ih hrest

theorem lookupVar_mapSubst_ne (m : List (List Char × List Char)) (k v k' : List Char)
    (h : k' ≠ k) :
    lookupVar (m.map (fun kv => if kv.1 = k then (k, v) else kv)) k' =
      lookupVar m k' := by
  induction m with
  | nil => rfl
  | cons kv rest ih =>
    by_cases hk : kv.1 = k
    · simp only [List.map_cons, if_pos hk, lookupVar]
      rw [if_neg (by simpa using h.symm), if_neg (by rw [hk]; exact fun he => h he.symm)]
      exact ih
    · simp only [List.map_cons, if_neg hk, lookupVar]
      by_cases hk' : kv.1 = k'
      · rw [if_pos hk', if_pos hk']
      · rw [if_neg hk', if_neg hk']
        exact ih

theorem lookupVar_append (m1 m2 : List (List Char × List Char)) (k : List Char) :
    lookupVar (m1 ++ m2) k =
      match lookupVar m1 k with
      | some v => some v
      | none => lookupVar m2 k := by
  induction m1 with
  | nil => rfl
  | cons kv rest ih =>
    by_cases hk : kv.1 = k
    · simp only [List.cons_append, lookupVar, if_pos hk]
    · simp only [List.cons_append, lookupVar, if_neg hk]
      rw [show rest.append m2 = rest ++ m2 from rfl]
      exact ih

theorem lookupVar_insert_ne (m : List (List Char × List Char)) (k v k' : List Char)
    (h : k' ≠ k) : lookupVar (insertVar m k v) k' = lookupVar m k' := by
  unfold insertVar
  split
  · exact lookupVar_mapSubst_ne m k v k' h
  · rw [lookupVar_append]
    cases hm : lookupVar m k' with
    | some v' => rfl
    | none =>
      simp only [lookupVar]
      rw [if_neg (fun he : k = k' => h he.symm)]

theorem lookupVar_foldl_insert_not_mem (values : List (List Char × List Char))
    (m : List (List Char × List Char)) (k : List Char)
    (h : ∀ kv ∈ values, kv.1 ≠ k) :
    lookupVar (values.foldl (fun m kv => insertVar m kv.1 kv.2) m) k =
      lookupVar m k := by
  induction values generalizing m with
  | nil => rfl
  | cons kv rest ih =>
    rw [List.foldl_cons, ih _ (fun x hx => h x (List.mem_cons_of_mem _ hx)),
      lookupVar_insert_ne _ _ _ _ (fun he => h kv (List.mem_cons_self _ _) he.symm)]

theorem lookupVar_foldl_insert_of_mem (values : List (List Char × List Char))
    (m : List (List Char × List Char)) (k v : List Char)
    (hnd : (values.map Prod.fst).Nodup) (hmem : (k, v) ∈ values) :
    lookupVar (values.foldl (fun m kv => insertVar m kv.1 kv.2) m) k = some v := by
  induction values generalizing m with
  | nil => simp at hmem
  | cons kv rest ih =>
    rw [List.map_cons, List.nodup_cons] at hnd
    rcases List.mem_cons.mp hmem with he | hmem'
    · subst he
      rw [List.foldl_cons]
      rw [lookupVar_foldl_insert_not_mem]
      · exact lookupVar_insert_self m k v
      · intro x hx hxk
        have hmm : x.1 ∈ rest.map Prod.fst := List.mem_map_of_mem Prod.fst hx
        rw [hxk] at hmm
        exact hnd.1 hmm
    · exact ih _ hnd.2 hmem'

/-- C3: a key bound both by an explicit pair and by the values file ends up
bound to the values-file value — the file is merged second and overwrites
collisions, whatever the `--define` list contains. -/
theorem values_file_overrides_defines (define : List (List Char))
    (values : List (List Char × List Char)) (k v : List Char)
    (hnd : (values.map Prod.fst).Nodup) (hmem : (k, v) ∈ values) :
    lookupVar (collect_predefined_variables define (some values)) k = some v := by
  unfold collect_predefined_variables
  exact lookupVar_foldl_insert_of_mem values _ k v hnd hmem

/-- Witness for C3 at the claim's own instance: explicit `x=1` together with
a values file binding `x` to `2` yields the binding `2`. -/
theorem values_file_overrides_defines_witness :
    ((([("x".data, "2".data)] : List (List Char × List Char)).map Prod.fst).Nodup ∧
      ("x".data, "2".data) ∈ [("x".data, "2".data)]) ∧
    lookupVar (collect_predefined_variables ["x=1".data]
      (some [("x".data, "2".data)])) "x".data = some "2".data :=
  ⟨⟨by decide, by decide⟩,
    values_file_overrides_defines ["x=1".data] [("x".data, "2".data)]
      "x".data "2".data (by decide) (by decide)⟩

/-! ## C8: the ignore predicate, and the ignored-file scenario -/

/-- C8: a path is ignored exactly when some ignore pattern matches it or it
is the manifest's own descriptor filename; consequently, with ignore list
`["*.secret"]`, generation of a tree containing `config.secret` succeeds and
materializes no entry at that path. -/
theorem should_ignore_file_spec :
    (∀ cfg path, should_ignore_file cfg path = true ↔
      ((∃ pat ∈ cfg.template.ignore, glob_match pat path = true) ∨
        path = configFileName)) ∧
    (generate secretConfig [] secretEntries []).2 = none ∧
    ((generate secretConfig [] secretEntries []).1.all
      (fun e => outPath e != "config.secret".data)) = true := by
  refine ⟨fun cfg path => ?_, by decide, by decide⟩
  unfold should_ignore_file
  simp [List.any_eq_true]

/-! ## C6: an existing output directory aborts before anything is written -/

/-- C6: when the output directory already exists, the flow fails with
`ProjectExists` and the list of writes under the output root is empty — the
check precedes generation, so the pre-existing directory is untouched.  The
hypothesis is that the chosen name passes the (regex-only) validation the
flow applies first; an invalid name also aborts before writing, only with a
different error. -/
theorem executeNew_output_exists (define : List (List Char))
    (valuesFile : Option (List (List Char × List Char))) (name : List Char)
    (cfg : TemplateConfig) (entries : List (List Char × FileKind))
    (h : validate_project_name_new name = true) :
    executeNew define valuesFile name cfg true entries =
      ([], some ExecErr.projectExists) := by
  unfold executeNew
  rw [h]
  simp

/-- Witness for C6 at a concrete valid name and template. -/
theorem executeNew_output_exists_witness :
    validate_project_name_new "my-service".data = true ∧
    executeNew [] none "my-service".data secretConfig true secretEntries =
      ([], some ExecErr.projectExists) :=
  ⟨by decide, executeNew_output_exists [] none _ secretConfig secretEntries (by decide)⟩

/-! ## C9: the case-conversion transforms -/

theorem intercalate_cons_cons (sep : List Char) (a b : List Char)
    (t : List (List Char)) :
    List.intercalate sep (a :: b :: t) = a ++ sep ++ List.intercalate sep (b :: t) := by
  simp [List.intercalate, List.intersperse]

theorem splitSep_ne_nil (p : Char → Bool) (s : List Char) : splitSep p s ≠ [] := by
  cases s with
  | nil => simp [splitSep]
  | cons c rest =>
    unfold splitSep
    split
    · simp
    · split
      · simp
      · simp

theorem splitSep_no_sep (p : Char → Bool) (s : List Char)
    (h : ∀ c ∈ s, p c = false) : splitSep p s = [s] := by
  induction s with
  | nil => rfl
  | cons c rest ih =>
    unfold splitSep
    rw [if_neg (by simp [h c (List.mem_cons_self _ _)])]
    rw [ih (fun d hd => h d (List.mem_cons_of_mem _ hd))]

theorem splitSep_append (p : Char → Bool) (w rest : List Char)
    (h : List Char) (ts : List (List Char))
    (hsplit : splitSep p rest = h :: ts)
    (hw : ∀ c ∈ w, p c = false) :
    splitSep p (w ++ rest) = (w ++ h) :: ts := by
  induction w with
  | nil => simpa using hsplit
  | cons c w' ih =>
    rw [List.cons_append]
    simp only [splitSep]
    rw [if_neg (by simp [hw c (List.mem_cons_self _ _)])]
    rw [ih (fun d hd => hw d (List.mem_cons_of_mem _ hd))]
    rfl

theorem splitSep_intercalate (p : Char → Bool) (sep : Char) (ws : List (List Char))
    (hne : ws ≠ [])
    (hw : ∀ w ∈ ws, ∀ c ∈ w, p c = false)
    (hsep : p sep = true) :
    splitSep p (List.intercalate [sep] ws) = ws := by
  induction ws with
  | nil => exact absurd rfl hne
  | cons w ws' ih =>
    cases ws' with
    | nil =>
      have : List.intercalate [sep] [w] = w := by simp [List.intercalate, List.intersperse]
      rw [this]
      exact splitSep_no_sep p w (hw w (List.mem_cons_self _ _))
    | cons w2 ws'' =>
      rw [intercalate_cons_cons]
      have hrec := ih (by simp) (fun x hx => hw x (List.mem_cons_of_mem _ hx))
      have hsepsplit : splitSep p (sep :: List.intercalate [sep] (w2 :: ws'')) =
          [] :: (w2 :: ws'') := by
        unfold splitSep
        rw [if_pos hsep, hrec]
      have hshape : w ++ [sep] ++ List.intercalate [sep] (w2 :: ws'') =
          w ++ sep :: List.intercalate [sep] (w2 :: ws'') := by simp
      rw [hshape]
      have := splitSep_append p w (sep :: List.intercalate [sep] (w2 :: ws''))
        [] (w2 :: ws'') hsepsplit (hw w (List.mem_cons_self _ _))
      simpa using this

theorem mem_splitSep (p : Char → Bool) (s : List Char)
    (seg : List Char) (hseg : seg ∈ splitSep p s) (c : Char) (hc : c ∈ seg) :
    c ∈ s ∧ p c = false := by
  induction s generalizing seg with
  | nil =>
    simp [splitSep] at hseg
    subst hseg
    simp at hc
  | cons d rest ih =>
    unfold splitSep at hseg
    by_cases hd : p d
    · rw [if_pos hd] at hseg
      rcases List.mem_cons.mp hseg with he | hmem
      · subst he; simp at hc
      · have := ih seg hmem hc
        exact ⟨List.mem_cons_of_mem _ this.1, this.2⟩
    · rw [if_neg hd] at hseg
      rcases hrec : splitSep p rest with _ | ⟨w, ws⟩
      · exact absurd hrec (splitSep_ne_nil p rest)
      · rw [hrec] at hseg
        rcases List.mem_cons.mp hseg with he | hmem
        · subst he
          rcases List.mem_cons.mp hc with he' | hmem'
          · subst he'
            exact ⟨List.mem_cons_self _ _, by simpa using hd⟩
          · have := ih w (by rw [hrec]; exact List.mem_cons_self _ _) hmem'
            exact ⟨List.mem_cons_of_mem _ this.1, this.2⟩
        · have := ih seg (by rw [hrec]; exact List.mem_cons_of_mem _ hmem) hc
          exact ⟨List.mem_cons_of_mem _ this.1, this.2⟩

theorem swa_nil (mode : WordMode) (acc : List Char) :
    splitWordsAux mode acc [] = [] := rfl

theorem swa_one (mode : WordMode) (acc : List Char) (c : Char) :
    splitWordsAux mode acc [c] = [acc ++ [c]] := rfl

theorem swa_cons_cons (mode : WordMode) (acc : List Char) (c next : Char)
    (rest : List Char) :
    splitWordsAux mode acc (c :: next :: rest) =
      if (if c.isLower then WordMode.lower
          else if c.isUpper then WordMode.upper else mode) = WordMode.lower ∧
          next.isUpper = true then
        (acc ++ [c]) :: splitWordsAux .boundary [] (next :: rest)
      else if mode = WordMode.upper ∧ c.isUpper = true ∧ next.isLower = true then
        acc :: splitWordsAux .boundary [c] (next :: rest)
      else
        splitWordsAux
          (if c.isLower then WordMode.lower
           else if c.isUpper then WordMode.upper else mode)
          (acc ++ [c]) (next :: rest) := rfl

theorem swa_no_upper (s : List Char) (mode : WordMode) (acc : List Char)
    (hne : s ≠ []) (h : ∀ c ∈ s, c.isUpper = false) :
    splitWordsAux mode acc s = [acc ++ s] := by
  induction s generalizing mode acc with
  | nil => exact absurd rfl hne
  | cons c rest ih =>
    cases rest with
    | nil => exact swa_one mode acc c
    | cons next rest' =>
      rw [swa_cons_cons]
      rw [if_neg, if_neg]
      · rw [ih _ _ (by simp) (fun d hd => h d (List.mem_cons_of_mem _ hd))]
        simp
      · intro hcon
        rw [h c (List.mem_cons_self _ _)] at hcon
        simp at hcon
      · intro hcon
        have hnu := h next (List.mem_cons_of_mem _ (List.mem_cons_self _ _))
        rw [hnu] at hcon
        simp at hcon

theorem swa_lower_run (ls : List Char) (u : Char) (r : List Char)
    (mode : WordMode) (acc : List Char)
    (hne : ls ≠ []) (hls : ∀ c ∈ ls, c.isLower = true) (hu : u.isUpper = true) :
    splitWordsAux mode acc (ls ++ u :: r) =
      (acc ++ ls) :: splitWordsAux .boundary [] (u :: r) := by
  induction ls generalizing mode acc with
  | nil => exact absurd rfl hne
  | cons l ls' ih =>
    have hl : l.isLower = true := hls l (List.mem_cons_self _ _)
    cases ls' with
    | nil =>
      rw [List.cons_append, List.nil_append, swa_cons_cons,
        if_pos (And.intro (by simp [hl]) hu)]
    | cons l2 ls'' =>
      have hl2 : l2.isLower = true :=
        hls l2 (List.mem_cons_of_mem _ (List.mem_cons_self _ _))
      rw [List.cons_append, List.cons_append, swa_cons_cons]
      rw [if_neg, if_neg]
      · rw [← List.cons_append, ih _ _ (by simp)
          (fun d hd => hls d (List.mem_cons_of_mem _ hd))]
        simp
      · intro hcon
        rw [lower_not_upper l hl] at hcon
        simp at hcon
      · intro hcon
        rw [lower_not_upper l2 hl2] at hcon
        simp at hcon

theorem pascalWords_head_upper (s : List Char) (h : PascalWords s)
    (c : Char) (t : List Char) (he : s = c :: t) : c.isUpper = true := by
  cases h with
  | nil => simp at he
  | cons u ls rest hu _ _ _ =>
    rw [List.cons.injEq] at he
    rw [← he.1]
    exact hu

theorem pascalWords_all_alnum (s : List Char) (h : PascalWords s) :
    ∀ c ∈ s, c.isAlphanum = true := by
  induction h with
  | nil => simp
  | cons u ls rest hu hls _ _ ih =>
    intro c hc
    rcases List.mem_cons.mp hc with he | hmem
    · subst he; exact isAlphanum_of_upper _ hu
    · rcases List.mem_append.mp hmem with hm | hm
      · exact isAlphanum_of_lower _ (hls c hm)
      · exact ih c hm

theorem capitalize_pascal_word (u : Char) (ls : List Char)
    (hu : u.isUpper = true) (hls : ∀ c ∈ ls, c.isLower = true) :
    capitalizeWord (u :: ls) = u :: ls := by
  show u.toUpper :: ls.map Char.toLower = u :: ls
  rw [toUpper_eq_self u (upper_not_lower u hu)]
  congr 1
  rw [List.map_congr_left (fun c hc => toLower_eq_self c (lower_not_upper c (hls c hc)))]
  exact List.map_id _

theorem swa_pascal (s : List Char) (h : PascalWords s) :
    ((splitWordsAux .boundary [] s).map capitalizeWord).flatten = s := by
  induction h with
  | nil => rfl
  | cons u ls rest hu hls hrest hdeg ih =>
    cases ls with
    | nil =>
      rw [hdeg rfl] at *
      simp only [List.nil_append, List.append_nil]
      rw [show splitWordsAux WordMode.boundary [] [u] = [[u]] from rfl]
      simp only [List.map_cons, List.map_nil, List.flatten_cons, List.flatten_nil]
      rw [show capitalizeWord [u] = [u.toUpper] from rfl,
        toUpper_eq_self u (upper_not_lower u hu)]
      simp
    | cons l ls' =>
      have hl : l.isLower = true := hls l (List.mem_cons_self _ _)
      have hstep : splitWordsAux .boundary [] (u :: ((l :: ls') ++ rest)) =
          splitWordsAux .upper [u] ((l :: ls') ++ rest) := by
        rw [List.cons_append, swa_cons_cons]
        rw [if_neg, if_neg]
        · rw [upper_not_lower u hu, hu]
          simp
        · simp
        · intro hcon
          rcases hcon with ⟨hmode, _⟩
          rw [upper_not_lower u hu, hu] at hmode
          simp at hmode
      rw [hstep]
      cases rest with
      | nil =>
        rw [List.append_nil]
        rw [swa_no_upper (l :: ls') .upper [u] (by simp)
          (fun c hc => lower_not_upper c (hls c hc))]
        simp only [List.map_cons, List.map_nil, List.flatten_cons, List.flatten_nil]
        rw [show ([u] ++ l :: ls') = u :: l :: ls' from rfl]
        rw [capitalize_pascal_word u (l :: ls') hu hls]
        simp
      | cons u' r' =>
        have hu' : u'.isUpper = true :=
          pascalWords_head_upper _ hrest u' r' rfl
        rw [swa_lower_run (l :: ls') u' r' .upper [u] (by simp) hls hu']
        simp only [List.map_cons, List.flatten_cons]
        rw [show ([u] ++ l :: ls') = u :: l :: ls' from rfl]
        rw [capitalize_pascal_word u (l :: ls') hu hls]
        rw [ih]
        simp

theorem splitWords_of_alnum (s : List Char) (h : ∀ c ∈ s, c.isAlphanum = true) :
    splitWords s = splitWordsAux .boundary [] s := by
  unfold splitWords
  rw [splitSep_no_sep _ s (fun c hc => by simp [h c hc])]
  simp

theorem lowercase_of_lower (l : List Char) (h : ∀ c ∈ l, c.isLower = true) :
    lowercaseWord l = l := by
  unfold lowercaseWord
  rw [List.map_congr_left (fun c hc => toLower_eq_self c (lower_not_upper c (h c hc)))]
  exact List.map_id _

theorem toPascalCase_conforming (s : List Char) (h : PascalWords s) :
    toPascalCase s = s := by
  unfold toPascalCase
  rw [splitWords_of_alnum s (pascalWords_all_alnum s h)]
  exact swa_pascal s h

theorem toLowerCamelCase_conforming (s : List Char) (h : CamelConforming s) :
    toLowerCamelCase s = s := by
  obtain ⟨l, rest, he, hlne, hl, hrest⟩ := h
  subst he
  unfold toLowerCamelCase
  rw [splitWords_of_alnum (l ++ rest)
    (fun c hc => by
      rcases List.mem_append.mp hc with hm | hm
      · exact isAlphanum_of_lower c (hl c hm)
      · exact pascalWords_all_alnum rest hrest c hm)]
  cases hr : rest with
  | nil =>
    subst hr
    rw [List.append_nil]
    rw [swa_no_upper l .boundary [] hlne
      (fun c hc => lower_not_upper c (hl c hc))]
    rw [show ((([] : List Char) ++ l) :: ([] : List (List Char))) = [l] from by simp]
    show lowercaseWord l ++ (List.map capitalizeWord []).flatten = l
    rw [lowercase_of_lower l hl]
    simp
  | cons u' r' =>
    have hu' : u'.isUpper = true := pascalWords_head_upper rest hrest u' r' hr
    subst hr
    rw [swa_lower_run l u' r' .boundary [] hlne hl hu']
    show lowercaseWord (([] : List Char) ++ l) ++
      (List.map capitalizeWord (splitWordsAux .boundary [] (u' :: r'))).flatten =
        l ++ u' :: r'
    rw [List.nil_append, lowercase_of_lower l hl, swa_pascal _ hrest]

theorem swa_ne_nil_mem (s : List Char) (mode : WordMode) (acc : List Char)
    (hinv : mode = .upper → acc ≠ []) :
    ∀ w ∈ splitWordsAux mode acc s, w ≠ [] := by
  induction s generalizing mode acc with
  | nil => intro w hw; rw [swa_nil] at hw; simp at hw
  | cons c rest ih =>
    cases rest with
    | nil =>
      intro w hw
      rw [swa_one] at hw
      rcases List.mem_singleton.mp hw with rfl
      simp
    | cons next rest' =>
      intro w hw
      rw [swa_cons_cons] at hw
      by_cases h1 : ((if c.isLower then WordMode.lower
          else if c.isUpper then WordMode.upper else mode) = WordMode.lower ∧
          next.isUpper = true)
      · rw [if_pos h1] at hw
        rcases List.mem_cons.mp hw with rfl | hmem
        · simp
        · exact ih .boundary [] (by simp) w hmem
      · rw [if_neg h1] at hw
        by_cases h2 : (mode = WordMode.upper ∧ c.isUpper = true ∧ next.isLower = true)
        · rw [if_pos h2] at hw
          rcases List.mem_cons.mp hw with rfl | hmem
          · exact hinv h2.1
          · exact ih .boundary [c] (by simp) w hmem
        · rw [if_neg h2] at hw
          exact ih _ (acc ++ [c]) (by simp) w hw

theorem swa_mem_chars (s : List Char) (mode : WordMode) (acc : List Char)
    (w : List Char) (hw : w ∈ splitWordsAux mode acc s) (c : Char) (hc : c ∈ w) :
    c ∈ acc ∨ c ∈ s := by
  induction s generalizing mode acc w with
  | nil => rw [swa_nil] at hw; simp at hw
  | cons d rest ih =>
    cases rest with
    | nil =>
      rw [swa_one] at hw
      rcases List.mem_singleton.mp hw with rfl
      rcases List.mem_append.mp hc with hm | hm
      · exact Or.inl hm
      · exact Or.inr (by simpa using hm)
    | cons next rest' =>
      rw [swa_cons_cons] at hw
      by_cases h1 : ((if d.isLower then WordMode.lower
          else if d.isUpper then WordMode.upper else mode) = WordMode.lower ∧
          next.isUpper = true)
      · rw [if_pos h1] at hw
        rcases List.mem_cons.mp hw with rfl | hmem
        · rcases List.mem_append.mp hc with hm | hm
          · exact Or.inl hm
          · exact Or.inr (by simp at hm; simp [hm])
        · rcases ih .boundary [] w hmem hc with hm | hm
          · simp at hm
          · exact Or.inr (List.mem_cons_of_mem _ hm)
      · rw [if_neg h1] at hw
        by_cases h2 : (mode = WordMode.upper ∧ d.isUpper = true ∧ next.isLower = true)
        · rw [if_pos h2] at hw
          rcases List.mem_cons.mp hw with rfl | hmem
          · exact Or.inl hc
          · rcases ih .boundary [d] w hmem hc with hm | hm
            · rcases List.mem_singleton.mp hm with rfl
              exact Or.inr (List.mem_cons_self _ _)
            · exact Or.inr (List.mem_cons_of_mem _ hm)
        · rw [if_neg h2] at hw
          rcases ih _ (acc ++ [d]) w hw hc with hm | hm
          · rcases List.mem_append.mp hm with hm' | hm'
            · exact Or.inl hm'
            · rcases List.mem_singleton.mp hm' with rfl
              exact Or.inr (List.mem_cons_self _ _)
          · exact Or.inr (List.mem_cons_of_mem _ hm)

theorem splitWords_mem_ne_nil (s : List Char) :
    ∀ w ∈ splitWords s, w ≠ [] := by
  intro w hw
  unfold splitWords at hw
  rw [List.mem_flatten] at hw
  obtain ⟨ws, hws, hwmem⟩ := hw
  rw [List.mem_map] at hws
  obtain ⟨seg, _, rfl⟩ := hws
  exact swa_ne_nil_mem seg .boundary [] (by simp) w hwmem

theorem splitWords_mem_alnum (s : List Char) :
    ∀ w ∈ splitWords s, ∀ c ∈ w, c.isAlphanum = true := by
  intro w hw c hc
  unfold splitWords at hw
  rw [List.mem_flatten] at hw
  obtain ⟨ws, hws, hwmem⟩ := hw
  rw [List.mem_map] at hws
  obtain ⟨seg, hseg, rfl⟩ := hws
  rcases swa_mem_chars seg .boundary [] w hwmem c hc with hm | hm
  · simp at hm
  · have := mem_splitSep _ s seg hseg c hm
    simpa using this.2

theorem flatten_map_singleton (ws : List (List Char)) :
    (ws.map (fun w => [w])).flatten = ws := by
  induction ws with
  | nil => rfl
  | cons w ws' ih => simp [ih]

theorem splitWords_intercalate_lower (sep : Char) (ws : List (List Char))
    (hsep : sep.isAlphanum = false) (hne : ws ≠ [])
    (hwne : ∀ w ∈ ws, w ≠ [])
    (hchars : ∀ w ∈ ws, ∀ c ∈ w, c.isAlphanum = true ∧ c.isUpper = false) :
    splitWords (List.intercalate [sep] ws) = ws := by
  unfold splitWords
  rw [splitSep_intercalate _ sep ws hne
    (fun w hw c hc => by simp [(hchars w hw c hc).1]) (by simp [hsep])]
  have hmap : ws.map (splitWordsAux .boundary []) = ws.map (fun w => [w]) :=
    List.map_congr_left (fun w hw =>
      swa_no_upper w .boundary [] (hwne w hw) (fun c hc => (hchars w hw c hc).2))
  rw [hmap]
  exact flatten_map_singleton ws

theorem lower_join_idem (sep : Char) (hsep : sep.isAlphanum = false)
    (s : List Char) :
    List.intercalate [sep]
      ((splitWords (List.intercalate [sep]
        ((splitWords s).map lowercaseWord))).map lowercaseWord) =
      List.intercalate [sep] ((splitWords s).map lowercaseWord) := by
  cases hws : splitWords s with
  | nil => rfl
  | cons w ws' =>
    have hresplit : splitWords (List.intercalate [sep]
        ((w :: ws').map lowercaseWord)) = (w :: ws').map lowercaseWord := by
      apply splitWords_intercalate_lower sep _ hsep (by simp)
      · intro w' hw'
        rw [List.mem_map] at hw'
        obtain ⟨w0, hw0, rfl⟩ := hw'
        have := splitWords_mem_ne_nil s w0 (by rw [hws]; exact hw0)
        simpa [lowercaseWord] using this
      · intro w' hw' c hc
        rw [List.mem_map] at hw'
        obtain ⟨w0, hw0, rfl⟩ := hw'
        rw [lowercaseWord, List.mem_map] at hc
        obtain ⟨c0, hc0, rfl⟩ := hc
        constructor
        · exact isAlphanum_toLower c0
            (splitWords_mem_alnum s w0 (by rw [hws]; exact hw0) c0 hc0)
        · exact toLower_not_upper c0
    rw [hresplit]
    have hmm : ((w :: ws').map lowercaseWord).map lowercaseWord =
        (w :: ws').map lowercaseWord := by
      rw [List.map_map]
      apply List.map_congr_left
      intro w0 _
      show lowercaseWord (lowercaseWord w0) = lowercaseWord w0
      unfold lowercaseWord
      rw [List.map_map]
      exact List.map_congr_left (fun c _ => toLower_toLower c)
    rw [hmm]

/-- C9 counterexample: the PascalCase transform is not idempotent on every
string.  `a_b` converts to `AB` (two one-letter words), but converting `AB`
again yields `Ab` — an uppercase run is one word and gets downcased after its
first letter.  The lowerCamelCase transform fails the same way on `a_b_c`. -/
theorem pascal_case_not_idempotent :
    toPascalCase "a_b".data = "AB".data ∧
    toPascalCase (toPascalCase "a_b".data) = "Ab".data ∧
    toPascalCase (toPascalCase "a_b".data) ≠ toPascalCase "a_b".data ∧
    toLowerCamelCase (toLowerCamelCase "a_b_c".data) ≠
      toLowerCamelCase "a_b_c".data := by decide

/-- C9 amended: every transform is a pure function of the transformed value
alone; snake_case and kebab-case are idempotent on every string, and the
three camel-family transforms fix every already-conforming string (and hence
are idempotent on such input), though not on arbitrary strings. -/
theorem case_transforms_idempotent :
    (∀ s, toSnakeCase (toSnakeCase s) = toSnakeCase s) ∧
    (∀ s, toKebabCase (toKebabCase s) = toKebabCase s) ∧
    (∀ s, PascalConforming s → toPascalCase s = s) ∧
    (∀ s, CamelConforming s → toLowerCamelCase s = s) ∧
    (∀ s, PascalConforming s → toUpperCamelCase s = s) := by
  refine ⟨fun s => lower_join_idem '_' (by decide) s,
    fun s => lower_join_idem '-' (by decide) s,
    fun s h => toPascalCase_conforming s h.2,
    fun s h => toLowerCamelCase_conforming s h,
    fun s h => toPascalCase_conforming s h.2⟩

/-- Witness for the amended C9 at concrete strings: snake_case is idempotent
on `XMLHttpRequest`, and the camel-family transforms fix `MyService` and
`myService`. -/
theorem case_transforms_idempotent_witness :
    toSnakeCase (toSnakeCase "XMLHttpRequest".data) =
      toSnakeCase "XMLHttpRequest".data ∧
    PascalConforming "MyService".data ∧
    toPascalCase "MyService".data = "MyService".data ∧
    CamelConforming "myService".data ∧
    toLowerCamelCase "myService".data = "myService".data := by
  have hpw : PascalWords "MyService".data :=
    PascalWords.cons 'M' ['y'] "Service".data (by decide) (by decide)
      (PascalWords.cons 'S' ['e', 'r', 'v', 'i', 'c', 'e'] [] (by decide)
        (by decide) PascalWords.nil (by simp)) (by simp)
  have hpc : PascalConforming "MyService".data := ⟨by decide, hpw⟩
  have hcw : PascalWords "Service".data :=
    PascalWords.cons 'S' ['e', 'r', 'v', 'i', 'c', 'e'] [] (by decide)
      (by decide) PascalWords.nil (by simp)
  have hcc : CamelConforming "myService".data :=
    ⟨['m', 'y'], "Service".data, by decide, by decide, by decide, hcw⟩
  exact ⟨case_transforms_idempotent.1 _, hpc,
    case_transforms_idempotent.2.2.1 _ hpc, hcc,
    case_transforms_idempotent.2.2.2.1 _ hcc⟩

/-! ## C4: generation of a literal-copy template is a round trip -/

theorem renderF_id (vars : List (List Char × List Char)) (f : Nat) (s : List Char)
    (hf : s.length < f) (h : containsSub markerOpen s = false) :
    renderF vars f s = .ok s := by
  induction f generalizing s with
  | zero => omega
  | succ f' ih =>
    cases s with
    | nil => rfl
    | cons c rest =>
      unfold containsSub at h
      rw [Bool.or_eq_false_iff] at h
      simp only [renderF, h.1, Bool.false_eq_true, if_false]
      rw [ih rest (by simp at hf; omega) h.2]
      rfl

theorem renderText_id (vars : List (List Char × List Char)) (s : List Char)
    (h : containsSub markerOpen s = false) : renderText vars s = .ok s :=
  renderF_id vars (s.length + 1) s (by omega) h

theorem process_filename_id (vars : List (List Char × List Char)) (p : List Char)
    (h : noMarkerName p = true) : process_filename vars p = .ok p := by
  unfold noMarkerName at h
  rw [Bool.and_eq_true, Bool.not_eq_true', Bool.not_eq_true'] at h
  simp only [process_filename, h.2, Bool.false_eq_true, if_false, h.1]

theorem addDir_of_mem (st : List OutEntry) (p : List Char)
    (h : OutEntry.dir p ∈ st) : addDir st p = st := by
  unfold addDir
  rw [if_pos (List.elem_eq_true_of_mem h)]

theorem addDir_of_not_mem (st : List OutEntry) (p : List Char)
    (h : OutEntry.dir p ∉ st) : addDir st p = st ++ [OutEntry.dir p] := by
  unfold addDir
  rw [if_neg (fun hc => h (List.mem_of_elem_eq_true hc))]

theorem foldl_addDir_of_mem (as : List (List Char)) (st : List OutEntry)
    (h : ∀ a ∈ as, OutEntry.dir a ∈ st) : as.foldl addDir st = st := by
  induction as with
  | nil => rfl
  | cons a as' ih =>
    rw [List.foldl_cons, addDir_of_mem st a (h a (List.mem_cons_self _ _))]
    exact ih (fun a' ha' => h a' (List.mem_cons_of_mem _ ha'))

theorem literalOutEntry_skip (cfg : TemplateConfig) (p : List Char) (k : FileKind)
    (h : p.isEmpty = true ∨ should_ignore_file cfg p = true) :
    literalOutEntry cfg (p, k) = none := by
  unfold literalOutEntry
  rcases h with h | h <;> simp [h]

theorem literalOutEntry_dir (cfg : TemplateConfig) (p : List Char)
    (hne : p.isEmpty = false) (hign : should_ignore_file cfg p = false) :
    literalOutEntry cfg (p, FileKind.dir) = some (OutEntry.dir p) := by
  unfold literalOutEntry
  simp [hne, hign]

theorem literalOutEntry_file (cfg : TemplateConfig) (p c : List Char)
    (hne : p.isEmpty = false) (hign : should_ignore_file cfg p = false) :
    literalOutEntry cfg (p, FileKind.file c) = some (OutEntry.file p c) := by
  unfold literalOutEntry
  simp [hne, hign]

theorem mem_literalOut_dir (cfg : TemplateConfig)
    (pre : List (List Char × FileKind)) (a : List Char)
    (hmem : (a, FileKind.dir) ∈ pre) (hne : a.isEmpty = false)
    (hign : should_ignore_file cfg a = false) :
    OutEntry.dir a ∈ literalOut cfg pre := by
  unfold literalOut
  rw [List.mem_filterMap]
  exact ⟨(a, FileKind.dir), hmem, literalOutEntry_dir cfg a hne hign⟩

theorem literalOutEntry_path (cfg : TemplateConfig) (x : List Char × FileKind)
    (e : OutEntry) (h : literalOutEntry cfg x = some e) : x.1 = outPath e := by
  unfold literalOutEntry at h
  rcases hcond : (x.1.isEmpty || should_ignore_file cfg x.1) with _ | _
  · rw [hcond, if_neg (by simp)] at h
    rcases hk : x.2 with _ | c <;> rw [hk] at h <;>
      rw [← Option.some_inj.mp h] <;> rfl
  · rw [hcond, if_pos rfl] at h
    simp at h

theorem literalOut_path (cfg : TemplateConfig)
    (pre : List (List Char × FileKind)) (e : OutEntry)
    (hmem : e ∈ literalOut cfg pre) : ∃ x ∈ pre, x.1 = outPath e := by
  unfold literalOut at hmem
  rw [List.mem_filterMap] at hmem
  obtain ⟨x, hx, hfx⟩ := hmem
  exact ⟨x, hx, literalOutEntry_path cfg x e hfx⟩

theorem literalOut_append_one (cfg : TemplateConfig)
    (pre : List (List Char × FileKind)) (x : List Char × FileKind) :
    literalOut cfg (pre ++ [x]) =
      literalOut cfg pre ++ (literalOutEntry cfg x).toList := by
  unfold literalOut
  rw [List.filterMap_append]
  congr 1

theorem generate_literal_aux (cfg : TemplateConfig)
    (vars : List (List Char × List Char)) :
    ∀ (suf pre : List (List Char × FileKind)),
    (∀ e ∈ suf, noMarkerName e.1 = true ∧ noMarkerContent e.2 = true) →
    wfWalkAux cfg pre suf = true →
    generate cfg vars suf (literalOut cfg pre) =
      (literalOut cfg (pre ++ suf), none) := by
  intro suf
  induction suf with
  | nil =>
    intro pre _ _
    rw [List.append_nil]
    rfl
  | cons x rest ih =>
    intro pre hmk hwf
    obtain ⟨p, k⟩ := x
    unfold wfWalkAux at hwf
    rw [Bool.and_eq_true] at hwf
    obtain ⟨hcheck, hwf'⟩ := hwf
    have hmk' := fun e he => hmk e (List.mem_cons_of_mem _ he)
    have hmkx := hmk (p, k) (List.mem_cons_self _ _)
    have hassoc : pre ++ (p, k) :: rest = (pre ++ [(p, k)]) ++ rest := by simp
    by_cases hp : p = []
    · have hpe : p.isEmpty = true := by rw [hp]; rfl
      simp only [generate, if_pos hp]
      have hskip := ih (pre ++ [(p, k)]) hmk' hwf'
      rw [literalOut_append_one, literalOutEntry_skip cfg p k (Or.inl hpe)] at hskip
      rw [hassoc]
      simpa using hskip
    · have hpe : p.isEmpty = false := by
        cases p with
        | nil => exact absurd rfl hp
        | cons a t => rfl
      by_cases hign : should_ignore_file cfg p = true
      · simp only [generate, if_neg hp, if_pos hign]
        have hskip := ih (pre ++ [(p, k)]) hmk' hwf'
        rw [literalOut_append_one, literalOutEntry_skip cfg p k (Or.inr hign)] at hskip
        rw [hassoc]
        simpa using hskip
      · have hign' : should_ignore_file cfg p = false := by
          cases hb : should_ignore_file cfg p
          · rfl
          · exact absurd hb hign
        rw [hpe, hign'] at hcheck
        simp only [Bool.false_or] at hcheck
        rw [Bool.and_eq_true] at hcheck
        obtain ⟨hanc, hfresh⟩ := hcheck
        rw [List.all_eq_true] at hanc hfresh
        have hancmem : ∀ a ∈ ancestorsOf p,
            OutEntry.dir a ∈ literalOut cfg pre := by
          intro a ha
          have := hanc a ha
          rw [Bool.and_eq_true, Bool.and_eq_true] at this
          obtain ⟨⟨hane, hamem⟩, haign⟩ := this
          refine mem_literalOut_dir cfg pre a
            (List.mem_of_elem_eq_true hamem) ?_ ?_
          · cases hb : a.isEmpty
            · rfl
            · rw [hb] at hane; simp at hane
          · cases hb : should_ignore_file cfg a
            · rfl
            · rw [hb] at haign; simp at haign
        have hnotmem : OutEntry.dir p ∉ literalOut cfg pre := by
          intro hmem
          obtain ⟨x, hx, hx1⟩ := literalOut_path cfg pre _ hmem
          have := hfresh x hx
          rw [hx1] at this
          simp [outPath] at this
        simp only [generate, if_neg hp, if_neg hign,
          process_filename_id vars p hmkx.1]
        cases k with
        | dir =>
          rw [show mkdirAll (literalOut cfg pre) p =
              (ancestorsOf p ++ [p]).foldl addDir (literalOut cfg pre) from rfl]
          rw [List.foldl_append, foldl_addDir_of_mem _ _ hancmem]
          rw [List.foldl_cons, List.foldl_nil, addDir_of_not_mem _ _ hnotmem]
          have hstep := ih (pre ++ [(p, FileKind.dir)]) hmk' hwf'
          rw [literalOut_append_one, literalOutEntry_dir cfg p hpe hign'] at hstep
          rw [hassoc]
          simpa using hstep
        | file c =>
          rw [foldl_addDir_of_mem _ _ hancmem]
          have hmc : containsSub markerOpen c = false := by
            have := hmkx.2
            unfold noMarkerContent at this
            rw [Bool.and_eq_true, Bool.not_eq_true', Bool.not_eq_true'] at this
            exact this.1
          have hstep := ih (pre ++ [(p, FileKind.file c)]) hmk' hwf'
          rw [literalOut_append_one, literalOutEntry_file cfg p c hpe hign'] at hstep
          cases hproc : (isLiquidPath p || should_process_file cfg p) with
          | true =>
            simp only [hproc, if_true, renderText_id vars c hmc]
            rw [hassoc]
            simpa using hstep
          | false =>
            simp only [hproc, Bool.false_eq_true, if_false]
            rw [hassoc]
            simpa using hstep

/-- C4: generating from a template tree whose filenames and file contents
carry no interpolation markers (and no `.liquid` suffix) succeeds and
materializes exactly the non-ignored entries, at their own relative paths,
directories and byte-identical file contents alike, with the manifest
descriptor (always ignored) excluded. -/
theorem generate_literal_roundtrip (cfg : TemplateConfig)
    (vars : List (List Char × List Char))
    (entries : List (List Char × FileKind))
    (h : literalTemplate cfg entries = true) :
    generate cfg vars entries [] = (literalOut cfg entries, none) := by
  unfold literalTemplate at h
  rw [Bool.and_eq_true] at h
  have hmk : ∀ e ∈ entries, noMarkerName e.1 = true ∧ noMarkerContent e.2 = true := by
    intro e he
    have := (List.all_eq_true.mp h.1) e he
    rw [Bool.and_eq_true] at this
    exact this
  have := generate_literal_aux cfg vars entries [] hmk h.2
  simpa using this

/-- Witness for C4: a concrete literal-copy template tree (with the manifest
file and an ignored `config.secret` in it) generates exactly its non-ignored
entries with identical contents. -/
theorem generate_literal_roundtrip_witness :
    literalTemplate secretConfig secretEntries = true ∧
    generate secretConfig [] secretEntries [] =
      (literalOut secretConfig secretEntries, none) :=
  ⟨by decide, generate_literal_roundtrip secretConfig [] secretEntries (by decide)⟩
